import Mathlib

/-!
Verification of the trie container `Dictionary<T>` (src/include/Dictionary.hpp).

The C++ class stores, at each node, an optional value pointer (`T* object`,
null when no inserted word ends there) and an ordered map of children
(`std::map<char, Dictionary*> childs`).  We embed a node as `Trie V` with an
`Option V` value and a child association list `Childs V` kept in strictly
increasing key order (the `std::map` representation invariant), and each
member function as a Lean function over this type.
-/

namespace Dict

mutual

/-- A trie node: `object` field (optional value) and ordered children. -/
inductive Trie (V : Type) where
  | node : Option V → Childs V → Trie V

/-- The child map of a node, as an association list ordered by key
(the shallow embedding of `std::map<char, Dictionary*>`). -/
inductive Childs (V : Type) where
  | nil : Childs V
  | cons : Char → Trie V → Childs V → Childs V

end

variable {V : Type} {α : Type}

/-- The `object` member of a node. -/
def Trie.object : Trie V → Option V
  | .node o _ => o

/-- The `childs` member of a node. -/
def Trie.childs : Trie V → Childs V
  | .node _ cs => cs

/-- A freshly default-constructed `Dictionary`: no object, no children. -/
def Trie.empty : Trie V := .node none .nil

/-- Member function `childs.find(c)`: the child for character `c`, if present. -/
def Childs.look : Childs V → Char → Option (Trie V)
  | .nil, _ => none
  | .cons c₁ t rest, c => if c = c₁ then some t else rest.look c

/-- Member function `find(prefix)`: walk the path character by character; `none` models the
null pointer returned when a character has no matching child edge. -/
def Trie.find : Trie V → List Char → Option (Trie V)
  | t, [] => some t
  | t, c :: w =>
    match t.childs.look c with
    | none => none
    | some t₁ => t₁.find w

/-- The expression `childs[c]` followed by an update of the mapped node: `std::map::operator[]`
default-constructs a fresh node when the key is absent (inserted at its
ordered position), and `f` is applied to the mapped node. -/
def Childs.update : Childs V → Char → (Trie V → Trie V) → Childs V
  | .nil, c, f => .cons c (f Trie.empty) .nil
  | .cons c₁ t rest, c, f =>
    if c < c₁ then .cons c (f Trie.empty) (.cons c₁ t rest)
    else if c = c₁ then .cons c₁ (f t) rest
    else .cons c₁ t (rest.update c f)

/-- Member function `insert(object, word)`: walk/extend the path for `word`, then overwrite
the terminal node's `object`. -/
def Trie.insert : Trie V → List Char → V → Trie V
  | .node _ cs, [], v => .node (some v) cs
  | .node o cs, c :: w, v => .node o (cs.update c (fun t => t.insert w v))

mutual

/-- Member function `traverse_recursive(func)`: visit this node's object (if any), then the
children in ascending key order; the list collects `func` applied to each
visited object, in visit order. -/
def Trie.traverse_recursive : Trie V → (V → α) → List α
  | .node o cs, f => (match o with | some v => [f v] | none => []) ++ cs.traverse_recursive f

/-- The loop `for ([key, child] : childs) child->traverse_recursive(func)`. -/
def Childs.traverse_recursive : Childs V → (V → α) → List α
  | .nil, _ => []
  | .cons _ t rest, f => t.traverse_recursive f ++ rest.traverse_recursive f

end

/-- Member function `get_all_objects(res)`: push every object of this subtree onto `res`. -/
def Trie.get_all_objects (t : Trie V) (res : List V) : List V :=
  res ++ t.traverse_recursive id

/-- Member function `word_exist(word)`: the object at the node for `word`, if the node exists
and its object is set (`cur && cur->object ? cur->object : nullptr`). -/
def Trie.word_exist (t : Trie V) (w : List Char) : Option V :=
  match t.find w with
  | none => none
  | some cur => cur.object

/-- Member function `prefix_exist(prefix)`: `find(prefix) != nullptr`. -/
def Trie.prefix_exist (t : Trie V) (p : List Char) : Bool :=
  (t.find p).isSome

/-- Member function `traverse(func)`: `traverse_recursive(func)` from the root. -/
def Trie.traverse (t : Trie V) (f : V → α) : List α :=
  t.traverse_recursive f

/-- Member function `auto_complete(prefix, res)`: find the node for `prefix`; if present,
append all objects beneath it to `res`, else leave `res` unchanged. -/
def Trie.auto_complete (t : Trie V) (p : List Char) (res : List V) : List V :=
  match t.find p with
  | none => res
  | some root => root.get_all_objects res

/-- Member function `clear()`: delete every child and clear the child map.  The node's own
`object` member is not touched. -/
def Trie.clear : Trie V → Trie V
  | .node o _ => .node o .nil

/-- The keys of a child list, in order. -/
def Childs.keys : Childs V → List Char
  | .nil => []
  | .cons c _ rest => c :: rest.keys

/-- A character list is strictly increasing (every element below all later
ones) — the `std::map` key invariant. -/
def keysIncreasing : List Char → Bool
  | [] => true
  | c :: rest => rest.all (fun d => decide (c < d)) && keysIncreasing rest

mutual

/-- Representation invariant: every child list in the tree has strictly
increasing keys (always true of a `std::map`). -/
def Trie.sortedB : Trie V → Bool
  | .node _ cs => keysIncreasing cs.keys && cs.sortedB

/-- All trees in a child list satisfy `Trie.sortedB`. -/
def Childs.sortedB : Childs V → Bool
  | .nil => true
  | .cons _ t rest => t.sortedB && rest.sortedB

end

mutual

/-- The (key, value) pairs stored in a subtree, in traversal order: this
node's pair (under key `[]`) first, then the children in list order with the
edge character consed onto their keys. -/
def Trie.entries : Trie V → List (List Char × V)
  | .node o cs => (match o with | some v => [([], v)] | none => []) ++ cs.entries

/-- Entries contributed by a child list. -/
def Childs.entries : Childs V → List (List Char × V)
  | .nil => []
  | .cons c t rest => (t.entries.map (fun e => (c :: e.1, e.2))) ++ rest.entries

end

/-- Strict lexicographic order on character lists (shorter proper initial
segments first). -/
def lexLt : List Char → List Char → Bool
  | [], [] => false
  | [], _ :: _ => true
  | _ :: _, [] => false
  | a :: as, b :: bs => if a < b then true else if a = b then lexLt as bs else false

/-- Predicate `isPre p k`: `p` is an initial segment of `k` (possibly equal). -/
def isPre : List Char → List Char → Bool
  | [], _ => true
  | _ :: _, [] => false
  | a :: as, b :: bs => (a == b) && isPre as bs

/-- Strict key order on entries. -/
def keyLt (a b : List Char × V) : Prop := lexLt a.1 b.1 = true

/-- Insert-or-replace into a lexicographically sorted entry list: the
specification-level effect of one `insert` on the stored entries. -/
def entryInsert (k : List Char) (v : V) : List (List Char × V) → List (List Char × V)
  | [] => [(k, v)]
  | (k₁, v₁) :: rest =>
    if k = k₁ then (k, v) :: rest
    else if lexLt k k₁ then (k, v) :: (k₁, v₁) :: rest
    else (k₁, v₁) :: entryInsert k v rest

/-- Run a sequence of `insert` calls against a starting container. -/
def buildFrom (t : Trie V) (ops : List (List Char × V)) : Trie V :=
  ops.foldl (fun acc e => acc.insert e.1 e.2) t

/-- The container produced by a sequence of `insert` calls on a freshly
constructed `Dictionary`. -/
def build (ops : List (List Char × V)) : Trie V :=
  buildFrom Trie.empty ops

/-- The value of the last operation in `ops` whose key is `k`, if any:
the specification-level outcome of a sequence of `insert` calls. -/
def lastVal (k : List Char) : List (List Char × V) → Option V
  | [] => none
  | e :: rest =>
    match lastVal k rest with
    | some v => some v
    | none => if e.1 = k then some e.2 else none

/-- Simultaneous induction over `Trie` and `Childs`. -/
theorem Trie.mutual_ind {V : Type} {P : Trie V → Prop} {Q : Childs V → Prop}
    (hnode : ∀ o cs, Q cs → P (Trie.node o cs))
    (hnil : Q Childs.nil)
    (hcons : ∀ c t rest, P t → Q rest → Q (Childs.cons c t rest)) :
    (∀ t, P t) ∧ (∀ cs, Q cs) :=
  ⟨fun t => Trie.rec hnode hnil hcons t, fun cs => Childs.rec hnode hnil hcons cs⟩

/-! ### Basic unfolding lemmas -/

theorem Trie.find_nil (t : Trie V) : t.find [] = some t := rfl

theorem Trie.find_cons (o : Option V) (cs : Childs V) (c : Char) (w : List Char) :
    (Trie.node o cs).find (c :: w) =
      match cs.look c with
      | none => none
      | some t₁ => t₁.find w := rfl

theorem Trie.word_exist_nil (t : Trie V) : t.word_exist [] = t.object := rfl

theorem Trie.word_exist_cons (o : Option V) (cs : Childs V) (c : Char) (w : List Char) :
    (Trie.node o cs).word_exist (c :: w) =
      match cs.look c with
      | none => none
      | some t₁ => t₁.word_exist w := by
  cases h : cs.look c <;> simp [Trie.word_exist, Trie.find_cons, h]

theorem Trie.prefix_exist_cons (o : Option V) (cs : Childs V) (c : Char) (w : List Char) :
    (Trie.node o cs).prefix_exist (c :: w) =
      match cs.look c with
      | none => false
      | some t₁ => t₁.prefix_exist w := by
  cases h : cs.look c <;> simp [Trie.prefix_exist, Trie.find_cons, h]

theorem Trie.word_exist_empty (w : List Char) : (Trie.empty : Trie V).word_exist w = none := by
  cases w <;> rfl

theorem Trie.prefix_exist_empty (p : List Char) :
    (Trie.empty : Trie V).prefix_exist p = p.isEmpty := by
  cases p <;> rfl

theorem Trie.auto_complete_nil (t : Trie V) (res : List V) :
    t.auto_complete [] res = t.get_all_objects res := rfl

theorem Trie.object_insert_cons (t : Trie V) (c : Char) (w : List Char) (v : V) :
    (t.insert (c :: w) v).object = t.object := by
  cases t; rfl

/-! ### `traverse_recursive` produces the entry values in order -/

theorem traverse_entries {α : Type} :
    (∀ t : Trie V, ∀ f : V → α, t.traverse_recursive f = t.entries.map (fun e => f e.2)) ∧
    (∀ cs : Childs V, ∀ f : V → α, cs.traverse_recursive f = cs.entries.map (fun e => f e.2)) := by
  apply Trie.mutual_ind
  · intro o cs ih f
    cases o <;> simp [Trie.traverse_recursive, Trie.entries, ih]
  · intro f
    simp [Childs.traverse_recursive, Childs.entries]
  · intro c t rest iht ihr f
    simp [Childs.traverse_recursive, Childs.entries, iht, ihr, List.map_map, Function.comp]

theorem Trie.get_all_objects_eq (t : Trie V) (res : List V) :
    t.get_all_objects res = res ++ t.entries.map (fun e => e.2) := by
  simp [Trie.get_all_objects, traverse_entries.1]

/-- C7: `traverse` applies the visitor to every stored value of the whole
tree, and the visited value sequence is exactly `auto_complete` of the empty
prefix (collect_under_prefix("")): the visit results are the map of the
visitor over that sequence, which itself is the value sequence of the
stored entries. -/
theorem spec_C7 (t : Trie V) (f : V → α) :
    t.traverse f = (t.auto_complete [] []).map f ∧
    t.auto_complete [] [] = t.entries.map (fun e => e.2) := by
  have h1 : t.auto_complete [] [] = t.entries.map (fun e => e.2) := by
    simp [Trie.auto_complete_nil, Trie.get_all_objects_eq]
  refine ⟨?_, h1⟩
  simp [h1, Trie.traverse, traverse_entries.1, List.map_map, Function.comp]

/-- C8: `prefix_exist ""` is true in every container state, including the
freshly constructed empty container: `find` of the empty path is the node
itself, never null. -/
theorem spec_C8 (t : Trie V) : t.prefix_exist [] = true := rfl

/-- C9: `clear` removes all children but leaves the node's own `object`
member untouched; in particular a value stored at the empty key survives
`clear` and is still returned by `word_exist ""`. -/
theorem spec_C9 (o : Option V) (cs : Childs V) (v : V) :
    (Trie.node o cs).clear = Trie.node o Childs.nil ∧
    ((Trie.empty : Trie V).insert [] v).clear.word_exist [] = some v :=
  ⟨rfl, rfl⟩

/-- C10: whenever `word_exist k` returns a value `v`, the node for `k`
exists, so `prefix_exist k` is true and `auto_complete k` is non-empty with
`v` as its first element (the node's own object is visited first). -/
theorem spec_C10 (t : Trie V) (k : List Char) (v : V) (h : t.word_exist k = some v) :
    t.prefix_exist k = true ∧
    (t.auto_complete k []).head? = some v ∧
    t.auto_complete k [] ≠ [] := by
  rcases hf : t.find k with _ | cur
  · simp [Trie.word_exist, hf] at h
  · have hobj : cur.object = some v := by simpa [Trie.word_exist, hf] using h
    rcases cur with ⟨o, cs⟩
    have ho : o = some v := by simpa [Trie.object] using hobj
    subst ho
    refine ⟨by simp [Trie.prefix_exist, hf], ?_, ?_⟩ <;>
      simp [Trie.auto_complete, hf, Trie.get_all_objects, Trie.traverse_recursive]

/-- C2 counterexample: after `insert(v, "")` followed by `clear()`, the query
`word_exist ""` still returns `v`, while on a freshly constructed container
it returns null — so clear-then-query is not always the fresh-container
behaviour. -/
theorem spec_C2_cex :
    (((Trie.empty : Trie Nat).insert [] 0).clear).word_exist [] = some 0 ∧
    (Trie.empty : Trie Nat).word_exist [] = none :=
  ⟨rfl, rfl⟩

/-- C5 counterexample: on the freshly constructed container (no inserted
keys) the code's `prefix_exist ""` is true, yet the empty string is not a
prefix of any inserted key — the claimed equivalence fails there. -/
theorem spec_C5_cex :
    (build ([] : List (List Char × Nat))).prefix_exist [] = true ∧
    ([] : List (List Char × Nat)).any (fun e => isPre [] e.1) = false :=
  ⟨rfl, rfl⟩

/-- Induction over a child list alone (no inductive hypothesis for the
subtrees). -/
theorem Childs.ind {V : Type} {Q : Childs V → Prop} (hnil : Q Childs.nil)
    (hcons : ∀ c t rest, Q rest → Q (Childs.cons c t rest)) : ∀ cs, Q cs :=
  (Trie.mutual_ind (P := fun _ => True) (fun _ _ _ => trivial) hnil
    (fun c t rest _ h => hcons c t rest h)).2

/-! ### Ordered child-map lemmas -/

theorem keysIncreasing_cons (c : Char) (ks : List Char) :
    keysIncreasing (c :: ks) = true ↔ (∀ d ∈ ks, c < d) ∧ keysIncreasing ks = true := by
  simp [keysIncreasing, List.all_eq_true]

theorem Childs.look_eq_none (cs : Childs V) (c : Char) (h : c ∉ cs.keys) :
    cs.look c = none := by
  induction cs using Childs.ind with
  | hnil => rfl
  | hcons c₁ t rest ih =>
    simp [Childs.keys] at h
    simp [Childs.look, h.1, ih h.2]

theorem Childs.look_mem_keys (cs : Childs V) (c : Char) (t : Trie V)
    (h : cs.look c = some t) : c ∈ cs.keys := by
  by_contra hc
  rw [cs.look_eq_none c hc] at h
  exact Option.noConfusion h

theorem Childs.look_update_ne (cs : Childs V) (c c₁ : Char) (f : Trie V → Trie V)
    (h : c ≠ c₁) : (cs.update c₁ f).look c = cs.look c := by
  induction cs using Childs.ind with
  | hnil => simp [Childs.update, Childs.look, h]
  | hcons c₂ t rest ih =>
    by_cases h1 : c₁ < c₂
    · simp [Childs.update, h1, Childs.look, h]
    · by_cases h2 : c₁ = c₂
      · subst h2
        simp [Childs.update, h1, Childs.look, h]
      · simp [Childs.update, h1, h2, Childs.look, ih]

theorem Childs.look_update_self (cs : Childs V) (c : Char) (f : Trie V → Trie V)
    (h : keysIncreasing cs.keys = true) :
    (cs.update c f).look c = some (f ((cs.look c).getD Trie.empty)) := by
  induction cs using Childs.ind with
  | hnil => simp [Childs.update, Childs.look]
  | hcons c₁ t rest ih =>
    rw [Childs.keys, keysIncreasing_cons] at h
    by_cases h1 : c < c₁
    · have hmem : c ∉ (Childs.cons c₁ t rest).keys := by
        rw [Childs.keys]
        intro hm
        rcases List.mem_cons.mp hm with h2 | h2
        · exact absurd h2.symm (ne_of_lt h1).symm
        · exact absurd (lt_trans h1 (h.1 c h2)) (lt_irrefl c)
      rw [Childs.look_eq_none _ _ hmem]
      simp [Childs.update, h1, Childs.look]
    · by_cases h2 : c = c₁
      · subst h2
        simp [Childs.update, h1, Childs.look]
      · simp [Childs.update, h1, h2, Childs.look, ih h.2]

theorem Childs.mem_keys_update (cs : Childs V) (c : Char) (f : Trie V → Trie V) :
    ∀ d ∈ (cs.update c f).keys, d = c ∨ d ∈ cs.keys := by
  induction cs using Childs.ind with
  | hnil => simp [Childs.update, Childs.keys]
  | hcons c₁ t rest ih =>
    intro d hd
    by_cases h1 : c < c₁
    · simp [Childs.update, h1, Childs.keys] at hd ⊢
      tauto
    · by_cases h2 : c = c₁
      · subst h2
        simp [Childs.update, h1, Childs.keys] at hd ⊢
        tauto
      · simp [Childs.update, h1, h2, Childs.keys] at hd ⊢
        rcases hd with hd | hd
        · tauto
        · rcases ih d hd with h3 | h3 <;> tauto

theorem Childs.keysIncreasing_update (cs : Childs V) (c : Char) (f : Trie V → Trie V)
    (h : keysIncreasing cs.keys = true) :
    keysIncreasing (cs.update c f).keys = true := by
  induction cs using Childs.ind with
  | hnil => simp [Childs.update, Childs.keys, keysIncreasing]
  | hcons c₁ t rest ih =>
    rw [Childs.keys, keysIncreasing_cons] at h
    by_cases h1 : c < c₁
    · rw [Childs.update]
      simp only [h1, if_pos]
      rw [Childs.keys, keysIncreasing_cons]
      refine ⟨?_, by rw [Childs.keys, keysIncreasing_cons]; exact h⟩
      intro d hd
      rw [Childs.keys] at hd
      rcases List.mem_cons.mp hd with h2 | h2
      · exact h2 ▸ h1
      · exact lt_trans h1 (h.1 d h2)
    · by_cases h2 : c = c₁
      · subst h2
        rw [Childs.update]
        simp only [h1, if_neg, if_pos, not_false_iff, reduceIte]
        rw [Childs.keys, keysIncreasing_cons]
        exact h
      · rw [Childs.update]
        simp only [h1, h2, if_neg, not_false_iff, reduceIte]
        rw [Childs.keys, keysIncreasing_cons]
        refine ⟨?_, ih h.2⟩
        intro d hd
        rcases Childs.mem_keys_update rest c f d hd with h3 | h3
        · subst h3
          rcases lt_trichotomy c₁ d with h4 | h4 | h4
          · exact h4
          · exact absurd h4.symm h2
          · exact absurd h4 h1
        · exact h.1 d h3

/-! ### Sortedness is preserved by `insert` -/

theorem Trie.sortedB_empty : (Trie.empty : Trie V).sortedB = true := rfl

theorem Trie.prefix_exist_nil (t : Trie V) : t.prefix_exist [] = true := rfl

theorem Trie.sortedB_node (o : Option V) (cs : Childs V) :
    (Trie.node o cs).sortedB = true ↔ keysIncreasing cs.keys = true ∧ cs.sortedB = true := by
  simp [Trie.sortedB, Bool.and_eq_true]

theorem Childs.sortedB_cons (c : Char) (t : Trie V) (rest : Childs V) :
    (Childs.cons c t rest).sortedB = true ↔ t.sortedB = true ∧ rest.sortedB = true := by
  simp [Childs.sortedB, Bool.and_eq_true]

theorem Childs.sortedB_look : ∀ (cs : Childs V) (c : Char) (t : Trie V),
    cs.sortedB = true → cs.look c = some t → t.sortedB = true := by
  intro cs
  induction cs using Childs.ind with
  | hnil => intro c t _ h; simp [Childs.look] at h
  | hcons c₁ t₁ rest ih =>
    intro c t hs h
    rw [Childs.sortedB_cons] at hs
    by_cases h1 : c = c₁
    · rw [Childs.look, if_pos h1] at h
      cases h
      exact hs.1
    · rw [Childs.look, if_neg h1] at h
      exact ih c t hs.2 h

theorem Childs.sortedB_update (f : Trie V → Trie V)
    (hf : ∀ t, t.sortedB = true → (f t).sortedB = true) :
    ∀ (cs : Childs V) (c : Char), cs.sortedB = true → (cs.update c f).sortedB = true := by
  intro cs
  induction cs using Childs.ind with
  | hnil =>
    intro c _
    simp only [Childs.update]
    rw [Childs.sortedB_cons]
    exact ⟨hf _ Trie.sortedB_empty, rfl⟩
  | hcons c₁ t rest ih =>
    intro c hs
    rw [Childs.sortedB_cons] at hs
    by_cases h1 : c < c₁
    · simp only [Childs.update, if_pos h1]
      rw [Childs.sortedB_cons]
      exact ⟨hf _ Trie.sortedB_empty, by rw [Childs.sortedB_cons]; exact hs⟩
    · by_cases h2 : c = c₁
      · simp only [Childs.update, if_neg h1, if_pos h2]
        rw [Childs.sortedB_cons]
        exact ⟨hf _ hs.1, hs.2⟩
      · simp only [Childs.update, if_neg h1, if_neg h2]
        rw [Childs.sortedB_cons]
        exact ⟨hs.1, ih c hs.2⟩

theorem Trie.sortedB_insert : ∀ (k : List Char) (t : Trie V) (v : V),
    t.sortedB = true → (t.insert k v).sortedB = true := by
  intro k
  induction k with
  | nil =>
    intro t v h
    rcases t with ⟨o, cs⟩
    simp only [Trie.insert]
    rw [Trie.sortedB_node] at h ⊢
    exact h
  | cons c w ih =>
    intro t v h
    rcases t with ⟨o, cs⟩
    simp only [Trie.insert]
    rw [Trie.sortedB_node] at h ⊢
    exact ⟨Childs.keysIncreasing_update cs c _ h.1,
      Childs.sortedB_update _ (fun t ht => ih t v ht) cs c h.2⟩

theorem buildFrom_nil (t : Trie V) : buildFrom t [] = t := rfl

theorem buildFrom_cons (t : Trie V) (e : List Char × V) (rest : List (List Char × V)) :
    buildFrom t (e :: rest) = buildFrom (t.insert e.1 e.2) rest := rfl

theorem Trie.sortedB_buildFrom : ∀ (ops : List (List Char × V)) (t : Trie V),
    t.sortedB = true → (buildFrom t ops).sortedB = true := by
  intro ops
  induction ops with
  | nil => intro t h; exact h
  | cons e rest ih =>
    intro t h
    rw [buildFrom_cons]
    exact ih _ (Trie.sortedB_insert e.1 t e.2 h)

theorem Trie.sortedB_build (ops : List (List Char × V)) : (build ops).sortedB = true :=
  Trie.sortedB_buildFrom ops Trie.empty rfl

/-! ### `word_exist` and `prefix_exist` after `insert` -/

theorem Trie.word_exist_insert_self : ∀ (k : List Char) (t : Trie V) (v : V),
    t.sortedB = true → (t.insert k v).word_exist k = some v := by
  intro k
  induction k with
  | nil =>
    intro t v _
    rcases t with ⟨o, cs⟩
    rfl
  | cons c w ih =>
    intro t v h
    rcases t with ⟨o, cs⟩
    rw [Trie.sortedB_node] at h
    simp only [Trie.insert]
    rw [Trie.word_exist_cons, Childs.look_update_self cs c _ h.1]
    show (((cs.look c).getD Trie.empty).insert w v).word_exist w = some v
    apply ih
    rcases hl : cs.look c with _ | t₁
    · exact Trie.sortedB_empty
    · exact Childs.sortedB_look cs c t₁ h.2 hl

theorem Trie.word_exist_insert_ne : ∀ (k k₁ : List Char) (t : Trie V) (v : V),
    t.sortedB = true → k ≠ k₁ → (t.insert k₁ v).word_exist k = t.word_exist k := by
  intro k
  induction k with
  | nil =>
    intro k₁ t v _ hne
    rcases t with ⟨o, cs⟩
    rcases k₁ with _ | ⟨c₁, w₁⟩
    · exact absurd rfl hne
    · simp only [Trie.insert, Trie.word_exist_nil, Trie.object]
  | cons c w ih =>
    intro k₁ t v h hne
    rcases t with ⟨o, cs⟩
    rw [Trie.sortedB_node] at h
    rcases k₁ with _ | ⟨c₁, w₁⟩
    · simp only [Trie.insert]
      rw [Trie.word_exist_cons, Trie.word_exist_cons]
    · simp only [Trie.insert]
      rw [Trie.word_exist_cons, Trie.word_exist_cons]
      by_cases hc : c = c₁
      · subst hc
        rw [Childs.look_update_self cs c _ h.1]
        have hw : w ≠ w₁ := fun hww => hne (by rw [hww])
        rcases hl : cs.look c with _ | t₁
        · show ((Trie.empty : Trie V).insert w₁ v).word_exist w = none
          rw [ih w₁ Trie.empty v Trie.sortedB_empty hw]
          exact Trie.word_exist_empty w
        · show (t₁.insert w₁ v).word_exist w = t₁.word_exist w
          exact ih w₁ t₁ v (Childs.sortedB_look cs c t₁ h.2 hl) hw
      · rw [Childs.look_update_ne cs c c₁ _ hc]

theorem Trie.prefix_exist_insert : ∀ (p k : List Char) (t : Trie V) (v : V),
    t.sortedB = true → (t.insert k v).prefix_exist p = (t.prefix_exist p || isPre p k) := by
  intro p
  induction p with
  | nil =>
    intro k t v _
    rw [Trie.prefix_exist_nil, Trie.prefix_exist_nil]
    simp [isPre]
  | cons c p₁ ih =>
    intro k t v h
    rcases t with ⟨o, cs⟩
    rw [Trie.sortedB_node] at h
    rcases k with _ | ⟨c₁, w₁⟩
    · simp only [Trie.insert, isPre]
      rw [Trie.prefix_exist_cons, Trie.prefix_exist_cons]
      simp
    · simp only [Trie.insert]
      rw [Trie.prefix_exist_cons, Trie.prefix_exist_cons]
      by_cases hc : c = c₁
      · subst hc
        rw [Childs.look_update_self cs c _ h.1]
        rcases hl : cs.look c with _ | t₁
        · show ((Trie.empty : Trie V).insert w₁ v).prefix_exist p₁ = (false || isPre (c :: p₁) (c :: w₁))
          rw [ih w₁ Trie.empty v Trie.sortedB_empty, Trie.prefix_exist_empty]
          rcases p₁ with _ | ⟨d, p₂⟩ <;> simp [isPre]
        · show (t₁.insert w₁ v).prefix_exist p₁ = (t₁.prefix_exist p₁ || isPre (c :: p₁) (c :: w₁))
          rw [ih w₁ t₁ v (Childs.sortedB_look cs c t₁ h.2 hl)]
          simp [isPre]
      · rw [Childs.look_update_ne cs c c₁ _ hc]
        have hbe : (c == c₁) = false := beq_eq_false_iff_ne.mpr hc
        simp only [isPre, hbe, Bool.false_and, Bool.or_false]

/-! ### Queries on a container built by a sequence of inserts -/

theorem lastVal_eq_none : ∀ (ops : List (List Char × V)) (k : List Char),
    ops.all (fun e => !(e.1 == k)) = true → lastVal k ops = none := by
  intro ops k
  induction ops with
  | nil => intro _; rfl
  | cons e rest ih =>
    intro h
    rw [List.all_cons, Bool.and_eq_true] at h
    have hne : e.1 ≠ k := by simpa using h.1
    simp only [lastVal, ih h.2]
    rw [if_neg hne]

theorem Trie.word_exist_buildFrom : ∀ (ops : List (List Char × V)) (t : Trie V) (k : List Char),
    t.sortedB = true →
    (buildFrom t ops).word_exist k =
      match lastVal k ops with
      | some v => some v
      | none => t.word_exist k := by
  intro ops
  induction ops with
  | nil => intro t k _; rfl
  | cons e rest ih =>
    intro t k h
    rw [buildFrom_cons, ih _ k (Trie.sortedB_insert e.1 t e.2 h)]
    rcases hl : lastVal k rest with _ | v
    · simp only [lastVal, hl]
      by_cases he : e.1 = k
      · subst he
        rw [if_pos rfl]
        exact Trie.word_exist_insert_self e.1 t e.2 h
      · rw [if_neg he]
        exact Trie.word_exist_insert_ne k e.1 t e.2 h (fun hh => he hh.symm)
    · simp only [lastVal, hl]

/-- C3: immediately after `insert(v, k)` the lookup of `k` returns `v`, and it
keeps returning `v` after any further sequence of inserts avoiding key `k`
(queries never mutate the container). -/
theorem spec_C3 (t : Trie V) (k : List Char) (v : V) (ops : List (List Char × V))
    (h1 : t.sortedB = true) (h2 : ops.all (fun e => !(e.1 == k)) = true) :
    (t.insert k v).word_exist k = some v ∧
    (buildFrom (t.insert k v) ops).word_exist k = some v := by
  have hs := Trie.sortedB_insert k t v h1
  have h3 := Trie.word_exist_buildFrom ops (t.insert k v) k hs
  rw [lastVal_eq_none ops k h2] at h3
  exact ⟨Trie.word_exist_insert_self k t v h1,
    h3.trans (Trie.word_exist_insert_self k t v h1)⟩

/-- C3 witness: insert `"a" → 0` into the empty container, then insert
`"b" → 1`; lookups of `"a"` return `0` both times. -/
theorem spec_C3_w :
    (Trie.empty : Trie Nat).sortedB = true ∧
    ([((['b'] : List Char), (1 : Nat))].all (fun e => !(e.1 == ['a'])) = true) ∧
    (((Trie.empty : Trie Nat).insert ['a'] 0).word_exist ['a'] = some 0 ∧
      (buildFrom ((Trie.empty : Trie Nat).insert ['a'] 0) [(['b'], 1)]).word_exist ['a'] = some 0) :=
  ⟨rfl, by decide, spec_C3 _ _ _ _ rfl (by decide)⟩

/-- C4: a key that was never inserted — in particular one that is only a
proper initial segment of inserted keys — is looked up as "not found". -/
theorem spec_C4 (ops : List (List Char × V)) (k : List Char)
    (h : ops.all (fun e => !(e.1 == k)) = true) :
    (build ops).word_exist k = none := by
  have h3 := Trie.word_exist_buildFrom ops Trie.empty k rfl
  rw [lastVal_eq_none ops k h] at h3
  exact h3.trans (Trie.word_exist_empty k)

/-- C4 witness: after inserting only `"ab"`, the proper initial segment `"a"`
is not found. -/
theorem spec_C4_w :
    ([((['a', 'b'] : List Char), (0 : Nat))].all (fun e => !(e.1 == ['a'])) = true) ∧
    (build [((['a', 'b'] : List Char), (0 : Nat))]).word_exist ['a'] = none :=
  ⟨by decide, spec_C4 _ _ (by decide)⟩

theorem Trie.prefix_exist_buildFrom : ∀ (ops : List (List Char × V)) (t : Trie V) (p : List Char),
    t.sortedB = true →
    (buildFrom t ops).prefix_exist p = (t.prefix_exist p || ops.any (fun e => isPre p e.1)) := by
  intro ops
  induction ops with
  | nil => intro t p _; simp [buildFrom_nil]
  | cons e rest ih =>
    intro t p h
    rw [buildFrom_cons, ih _ p (Trie.sortedB_insert e.1 t e.2 h),
      Trie.prefix_exist_insert p e.1 t e.2 h]
    simp [List.any_cons, Bool.or_assoc]

/-- C5 amended: `prefix_exist p` is true iff `p` is empty (the root node
always exists) or `p` is an initial segment of at least one inserted key. -/
theorem spec_C5_amended (ops : List (List Char × V)) (p : List Char) :
    (build ops).prefix_exist p = (p.isEmpty || ops.any (fun e => isPre p e.1)) := by
  have h := Trie.prefix_exist_buildFrom ops Trie.empty p rfl
  rw [Trie.prefix_exist_empty] at h
  exact h

theorem Trie.object_buildFrom : ∀ (ops : List (List Char × V)) (t : Trie V),
    ops.all (fun e => !e.1.isEmpty) = true → (buildFrom t ops).object = t.object := by
  intro ops
  induction ops with
  | nil => intro t _; rfl
  | cons e rest ih =>
    intro t h
    rcases e with ⟨k₁, v₁⟩
    rw [List.all_cons, Bool.and_eq_true] at h
    rw [buildFrom_cons, ih _ h.2]
    rcases k₁ with _ | ⟨c, w⟩
    · exact Bool.noConfusion h.1
    · exact Trie.object_insert_cons t c w v₁

theorem Trie.clear_eq (t : Trie V) : t.clear = Trie.node t.object Childs.nil := by
  cases t; rfl

/-- C2 amended: `clear()` followed by any query behaves identically to a
freshly constructed empty container provided the empty key was never
inserted; a value stored at the empty key survives `clear()` (it lives in
the root node's `object` member, which `clear` does not reset). -/
theorem spec_C2_amended (ops : List (List Char × V))
    (h : ops.all (fun e => !e.1.isEmpty) = true) :
    (build ops).clear = (Trie.empty : Trie V) := by
  rw [Trie.clear_eq]
  show Trie.node (buildFrom Trie.empty ops).object Childs.nil = Trie.empty
  rw [Trie.object_buildFrom ops Trie.empty h]
  rfl

/-- C2 amended witness: after inserting only the non-empty key `"a"`,
`clear()` restores exactly the freshly constructed container state. -/
theorem spec_C2_amended_w :
    ([((['a'] : List Char), (0 : Nat))].all (fun e => !e.1.isEmpty) = true) ∧
    (build [((['a'] : List Char), (0 : Nat))]).clear = (Trie.empty : Trie Nat) :=
  ⟨by decide, spec_C2_amended _ (by decide)⟩

/-! ### Lexicographic order facts -/

theorem lexLt_irrefl : ∀ k : List Char, lexLt k k = false := by
  intro k
  induction k with
  | nil => rfl
  | cons c w ih => simp [lexLt, ih]

theorem lexLt_ne {a b : List Char} (h : lexLt a b = true) : a ≠ b := by
  intro hab
  subst hab
  rw [lexLt_irrefl] at h
  exact Bool.noConfusion h

theorem lexLt_asymm : ∀ a b : List Char, lexLt a b = true → lexLt b a = false := by
  intro a
  induction a with
  | nil =>
    intro b h
    cases b with
    | nil => exact absurd h (by rw [lexLt_irrefl]; exact Bool.noConfusion)
    | cons d bs => rfl
  | cons c as ih =>
    intro b h
    cases b with
    | nil => exact Bool.noConfusion h
    | cons d bs =>
      by_cases h1 : c < d
      · have h2 : ¬d < c := asymm h1
        have h3 : d ≠ c := ne_of_gt h1
        simp [lexLt, h2, h3]
      · by_cases h2 : c = d
        · subst h2
          rw [lexLt] at h
          rw [if_neg h1, if_pos rfl] at h
          simp [lexLt, lt_irrefl, ih bs h]
        · simp [lexLt, h1, h2] at h

theorem lexLt_nil_cons (c : Char) (k : List Char) : lexLt [] (c :: k) = true := rfl

theorem lexLt_cons_same (c : Char) (a b : List Char) : lexLt (c :: a) (c :: b) = lexLt a b := by
  simp [lexLt, lt_irrefl]

theorem lexLt_cons_lt {c d : Char} (h : c < d) (a b : List Char) :
    lexLt (c :: a) (d :: b) = true := by
  simp [lexLt, h]

/-! ### `entryInsert` structure lemmas -/

theorem entryInsert_front (k : List Char) (v : V) (E : List (List Char × V))
    (h : ∀ e ∈ E, lexLt k e.1 = true) : entryInsert k v E = (k, v) :: E := by
  cases E with
  | nil => rfl
  | cons e rest =>
    rcases e with ⟨k₁, v₁⟩
    have h1 := h _ (List.mem_cons_self _ _)
    have h2 : k ≠ k₁ := lexLt_ne h1
    simp [entryInsert, h2, h1]

theorem entryInsert_skip (k : List Char) (v : V) :
    ∀ (E₁ E₂ : List (List Char × V)), (∀ e ∈ E₁, lexLt e.1 k = true) →
    entryInsert k v (E₁ ++ E₂) = E₁ ++ entryInsert k v E₂ := by
  intro E₁
  induction E₁ with
  | nil => intro E₂ _; rfl
  | cons e rest ih =>
    intro E₂ h
    rcases e with ⟨k₁, v₁⟩
    have h1 := h _ (List.mem_cons_self _ _)
    have h2 : k ≠ k₁ := by
      intro he
      subst he
      rw [lexLt_irrefl] at h1
      exact Bool.noConfusion h1
    have h3 : lexLt k k₁ = false := lexLt_asymm _ _ h1
    simp only [List.cons_append, entryInsert, if_neg h2, h3]
    simp [ih E₂ (fun e he => h e (List.mem_cons_of_mem _ he))]

theorem entryInsert_cons_map (c : Char) (w : List Char) (v : V) :
    ∀ (E E₂ : List (List Char × V)), (∀ e ∈ E₂, lexLt (c :: w) e.1 = true) →
    entryInsert (c :: w) v (E.map (fun e => (c :: e.1, e.2)) ++ E₂) =
      (entryInsert w v E).map (fun e => (c :: e.1, e.2)) ++ E₂ := by
  intro E
  induction E with
  | nil =>
    intro E₂ h
    simp only [List.map_nil, List.nil_append]
    rw [entryInsert_front _ _ _ h]
    rfl
  | cons e rest ih =>
    intro E₂ h
    rcases e with ⟨k₁, v₁⟩
    simp only [List.map_cons, List.cons_append, entryInsert]
    by_cases h1 : w = k₁
    · subst h1
      simp
    · have h2 : (c :: w) ≠ (c :: k₁) := by simp [h1]
      rw [if_neg h2, if_neg h1, lexLt_cons_same]
      by_cases h3 : lexLt w k₁ = true
      · simp [h3]
      · have h4 : lexLt w k₁ = false := Bool.not_eq_true _ ▸ eq_false_of_ne_true h3
        simp only [h4, Bool.false_eq_true, if_false, List.append_eq]
        rw [ih E₂ h]
        rfl

/-! ### The entries of a subtree -/

theorem Trie.entries_empty : (Trie.empty : Trie V).entries = [] := rfl

theorem Childs.entries_key_shape : ∀ cs : Childs V, ∀ e ∈ cs.entries,
    ∃ c k, e.1 = c :: k ∧ c ∈ cs.keys := by
  intro cs
  induction cs using Childs.ind with
  | hnil => intro e he; simp [Childs.entries] at he
  | hcons c t rest ih =>
    intro e he
    simp only [Childs.entries, List.mem_append, List.mem_map] at he
    rcases he with ⟨e₁, _, rfl⟩ | he
    · exact ⟨c, e₁.1, rfl, by simp [Childs.keys]⟩
    · rcases ih e he with ⟨c₁, k₁, h1, h2⟩
      exact ⟨c₁, k₁, h1, by simp [Childs.keys, h2]⟩

theorem Trie.entries_insert : ∀ (k : List Char) (v : V) (t : Trie V), t.sortedB = true →
    (t.insert k v).entries = entryInsert k v t.entries := by
  intro k
  induction k with
  | nil =>
    intro v t _
    rcases t with ⟨o, cs⟩
    simp only [Trie.insert, Trie.entries]
    rcases o with _ | v₁
    · simp only [List.nil_append]
      cases hcs : cs.entries with
      | nil => rfl
      | cons e rest =>
        rcases Childs.entries_key_shape cs e (hcs ▸ List.mem_cons_self e rest) with
          ⟨c₁, k₁, h1, _⟩
        rcases e with ⟨ek, ev⟩
        simp only at h1
        subst h1
        simp [entryInsert, lexLt]
    · simp [entryInsert]
  | cons c w ih =>
    intro v t h
    rcases t with ⟨o, cs⟩
    rw [Trie.sortedB_node] at h
    simp only [Trie.insert, Trie.entries]
    have key : ∀ cs : Childs V, keysIncreasing cs.keys = true → cs.sortedB = true →
        (cs.update c (fun t => t.insert w v)).entries = entryInsert (c :: w) v cs.entries := by
      intro cs
      induction cs using Childs.ind with
      | hnil =>
        intro _ _
        simp only [Childs.update, Childs.entries]
        rw [ih v Trie.empty rfl, Trie.entries_empty]
        rfl
      | hcons c₁ t rest ihc =>
        intro hk hs
        rw [Childs.keys, keysIncreasing_cons] at hk
        rw [Childs.sortedB_cons] at hs
        by_cases h1 : c < c₁
        · simp only [Childs.update, if_pos h1, Childs.entries]
          rw [ih v Trie.empty rfl, Trie.entries_empty]
          have hfront : entryInsert (c :: w) v
              ((t.entries.map (fun e => (c₁ :: e.1, e.2))) ++ rest.entries) =
              (c :: w, v) :: ((t.entries.map (fun e => (c₁ :: e.1, e.2))) ++ rest.entries) := by
            apply entryInsert_front
            intro e he
            have he₂ : e ∈ (Childs.cons c₁ t rest).entries := he
            rcases Childs.entries_key_shape _ e he₂ with ⟨c₂, k₂, hsh, hm⟩
            rw [Childs.keys] at hm
            have hcc : c < c₂ := by
              rcases List.mem_cons.mp hm with h2 | h2
              · exact h2 ▸ h1
              · exact lt_trans h1 (hk.1 c₂ h2)
            rw [hsh]
            exact lexLt_cons_lt hcc _ _
          rw [hfront]
          rfl
        · by_cases h2 : c = c₁
          · subst h2
            simp only [Childs.update, if_neg h1, if_pos rfl, Childs.entries]
            rw [ih v t hs.1]
            rw [entryInsert_cons_map]
            intro e he
            rcases Childs.entries_key_shape rest e he with ⟨c₂, k₂, hsh, hm⟩
            have hcc : c < c₂ := hk.1 c₂ hm
            rw [hsh]
            exact lexLt_cons_lt hcc _ _
          · have h3 : c₁ < c := lt_of_le_of_ne (not_lt.mp h1) (Ne.symm h2)
            simp only [Childs.update, if_neg h1, if_neg h2, Childs.entries]
            rw [entryInsert_skip]
            · rw [ihc hk.2 hs.2]
            · intro e he
              rcases List.mem_map.mp he with ⟨e₁, _, rfl⟩
              exact lexLt_cons_lt h3 _ _
    rcases o with _ | v₁
    · simp only [List.nil_append]
      exact key cs h.1 h.2
    · simp only [List.cons_append, List.nil_append, entryInsert, lexLt]
      rw [key cs h.1 h.2]
      simp [List.cons_ne_nil]

/-! ### The entries are in strict lexicographic order -/

theorem entries_pairwise :
    (∀ t : Trie V, t.sortedB = true → t.entries.Pairwise keyLt) ∧
    (∀ cs : Childs V, keysIncreasing cs.keys = true → cs.sortedB = true →
      cs.entries.Pairwise keyLt) := by
  apply Trie.mutual_ind
  · intro o cs ih h
    rw [Trie.sortedB_node] at h
    rcases o with _ | v
    · simpa [Trie.entries] using ih h.1 h.2
    · simp only [Trie.entries, List.singleton_append]
      rw [List.pairwise_cons]
      refine ⟨?_, ih h.1 h.2⟩
      intro e he
      rcases Childs.entries_key_shape cs e he with ⟨c, k, h1, _⟩
      show lexLt ([], v).1 e.1 = true
      rw [h1]
      exact lexLt_nil_cons c k
  · intro _ _
    simp [Childs.entries]
  · intro c t rest iht ihr hk hs
    rw [Childs.keys, keysIncreasing_cons] at hk
    rw [Childs.sortedB_cons] at hs
    simp only [Childs.entries]
    rw [List.pairwise_append]
    refine ⟨?_, ihr hk.2 hs.2, ?_⟩
    · rw [List.pairwise_map]
      refine (iht hs.1).imp ?_
      intro a b hab
      show lexLt (c :: a.1) (c :: b.1) = true
      rw [lexLt_cons_same]
      exact hab
    · intro a ha b hb
      rcases List.mem_map.mp ha with ⟨a₁, _, rfl⟩
      rcases Childs.entries_key_shape rest b hb with ⟨c₂, k₂, h1, h2⟩
      have hlt : c < c₂ := hk.1 c₂ h2
      show lexLt (c :: a₁.1) b.1 = true
      rw [h1]
      exact lexLt_cons_lt hlt _ _

/-! ### Membership in the entries is exactly a successful lookup -/

theorem Childs.look_mem_entries : ∀ (cs : Childs V), keysIncreasing cs.keys = true →
    ∀ (c : Char) (w : List Char) (v : V),
    ((c :: w, v) ∈ cs.entries ↔ ∃ t₁, cs.look c = some t₁ ∧ (w, v) ∈ t₁.entries) := by
  intro cs
  induction cs using Childs.ind with
  | hnil =>
    intro _ c w v
    simp [Childs.entries, Childs.look]
  | hcons c₁ t rest ih =>
    intro hk c w v
    rw [Childs.keys, keysIncreasing_cons] at hk
    by_cases h1 : c = c₁
    · subst h1
      constructor
      · intro hm
        rcases List.mem_append.mp hm with hm₁ | hm₁
        · rcases List.mem_map.mp hm₁ with ⟨e₁, he₁, heq⟩
          refine ⟨t, by rw [Childs.look, if_pos rfl], ?_⟩
          have h2 : e₁ = (w, v) := by
            rcases e₁ with ⟨ek, ev⟩
            simp only [Prod.mk.injEq, List.cons.injEq] at heq
            simp [heq.1.2, heq.2]
          exact h2 ▸ he₁
        · rcases Childs.entries_key_shape rest _ hm₁ with ⟨c₂, k₂, hsh, hm₂⟩
          simp only at hsh
          have := hk.1 c₂ hm₂
          rw [List.cons.injEq] at hsh
          exact absurd (hsh.1 ▸ this) (lt_irrefl c)
      · rintro ⟨t₁, ht₁, hm⟩
        rw [Childs.look, if_pos rfl] at ht₁
        cases ht₁
        exact List.mem_append.mpr (Or.inl (List.mem_map.mpr ⟨(w, v), hm, rfl⟩))
    · rw [Childs.look, if_neg h1]
      constructor
      · intro hm
        rcases List.mem_append.mp hm with hm₁ | hm₁
        · rcases List.mem_map.mp hm₁ with ⟨e₁, _, heq⟩
          rcases e₁ with ⟨ek, ev⟩
          simp only [Prod.mk.injEq, List.cons.injEq] at heq
          exact absurd heq.1.1.symm h1
        · exact (ih hk.2 c w v).mp hm₁
      · intro hx
        exact List.mem_append.mpr (Or.inr ((ih hk.2 c w v).mpr hx))

theorem Trie.word_mem_entries : ∀ (k : List Char) (t : Trie V) (v : V), t.sortedB = true →
    ((k, v) ∈ t.entries ↔ t.word_exist k = some v) := by
  intro k
  induction k with
  | nil =>
    intro t v _
    rcases t with ⟨o, cs⟩
    rw [Trie.word_exist_nil]
    constructor
    · intro h1
      rcases List.mem_append.mp h1 with h2 | h2
      · rcases o with _ | v₁
        · exact absurd h2 (List.not_mem_nil _)
        · have h3 : v = v₁ := by
            simp only [List.mem_singleton, Prod.mk.injEq] at h2
            exact h2.2
          show Trie.object (Trie.node (some v₁) cs) = some v
          rw [h3]
          rfl
      · rcases Childs.entries_key_shape cs _ h2 with ⟨c, k, hsh, _⟩
        exact absurd hsh (List.cons_ne_nil c k).symm
    · intro h1
      have h2 : o = some v := h1
      subst h2
      exact List.mem_append.mpr (Or.inl (List.mem_singleton.mpr rfl))
  | cons c w ih =>
    intro t v h
    rcases t with ⟨o, cs⟩
    rw [Trie.sortedB_node] at h
    rw [Trie.word_exist_cons]
    have hml := Childs.look_mem_entries cs h.1 c w v
    constructor
    · intro h1
      rcases List.mem_append.mp h1 with h2 | h2
      · rcases o with _ | v₁
        · exact absurd h2 (List.not_mem_nil _)
        · simp only [List.mem_singleton, Prod.mk.injEq] at h2
          exact absurd h2.1 (List.cons_ne_nil c w)
      · rcases hml.mp h2 with ⟨t₁, hl, hm⟩
        rw [hl]
        exact (ih t₁ v (Childs.sortedB_look cs c t₁ h.2 hl)).mp hm
    · intro h1
      refine List.mem_append.mpr (Or.inr ?_)
      rcases hl : cs.look c with _ | t₁
      · rw [hl] at h1
        exact Option.noConfusion h1
      · rw [hl] at h1
        exact hml.mpr ⟨t₁, hl, (ih t₁ v (Childs.sortedB_look cs c t₁ h.2 hl)).mpr h1⟩

/-! ### The entries below the node of a given path -/

theorem Trie.entries_filter_find : ∀ (p : List Char) (t : Trie V), t.sortedB = true →
    t.entries.filter (fun e => isPre p e.1) =
      match t.find p with
      | none => []
      | some s => s.entries.map (fun e => (p ++ e.1, e.2)) := by
  intro p
  induction p with
  | nil =>
    intro t _
    rw [Trie.find_nil]
    simp [isPre]
  | cons c p₁ ih =>
    intro t h
    rcases t with ⟨o, cs⟩
    rw [Trie.sortedB_node] at h
    rw [Trie.find_cons]
    have key : ∀ cs : Childs V, keysIncreasing cs.keys = true → cs.sortedB = true →
        cs.entries.filter (fun e => isPre (c :: p₁) e.1) =
          match cs.look c with
          | none => []
          | some t₁ => (t₁.entries.filter (fun e => isPre p₁ e.1)).map
              (fun e => (c :: e.1, e.2)) := by
      intro cs
      induction cs using Childs.ind with
      | hnil => intro _ _; simp [Childs.entries, Childs.look]
      | hcons c₁ t rest ihc =>
        intro hk hs
        rw [Childs.keys, keysIncreasing_cons] at hk
        rw [Childs.sortedB_cons] at hs
        simp only [Childs.entries, List.filter_append, Childs.look]
        by_cases h1 : c = c₁
        · subst h1
          rw [if_pos rfl]
          have hrest : rest.entries.filter (fun e => isPre (c :: p₁) e.1) = [] := by
            rw [List.filter_eq_nil]
            intro e he
            rcases Childs.entries_key_shape rest e he with ⟨c₂, k₂, hsh, hm⟩
            have hlt : c < c₂ := hk.1 c₂ hm
            have hne : c ≠ c₂ := ne_of_lt hlt
            simp [hsh, isPre, hne]
          rw [hrest, List.append_nil]
          rw [List.filter_map]
          congr 1
          apply List.filter_congr
          intro e _
          show isPre (c :: p₁) (c :: e.1) = isPre p₁ e.1
          simp [isPre]
        · rw [if_neg h1]
          have hblock : (t.entries.map (fun e => (c₁ :: e.1, e.2))).filter
              (fun e => isPre (c :: p₁) e.1) = [] := by
            rw [List.filter_eq_nil]
            intro e he
            rcases List.mem_map.mp he with ⟨e₁, _, rfl⟩
            simp [isPre, h1]
          rw [hblock, List.nil_append]
          exact ihc hk.2 hs.2
    have main : cs.entries.filter (fun e => isPre (c :: p₁) e.1) =
        match (match cs.look c with | none => none | some t₁ => t₁.find p₁) with
        | none => []
        | some s => s.entries.map (fun e => ((c :: p₁) ++ e.1, e.2)) := by
      rw [key cs h.1 h.2]
      rcases hl : cs.look c with _ | t₁
      · rfl
      · have hst : t₁.sortedB = true := Childs.sortedB_look cs c t₁ h.2 hl
        show List.map (fun e => (c :: e.1, e.2)) (List.filter (fun e => isPre p₁ e.1) t₁.entries) =
          match t₁.find p₁ with
          | none => []
          | some s => List.map (fun e => (c :: p₁ ++ e.1, e.2)) s.entries
        rw [ih t₁ hst]
        rcases hf : t₁.find p₁ with _ | s
        · rfl
        · simp [List.map_map, Function.comp]
    rcases o with _ | v
    · simpa only [Trie.entries, List.nil_append] using main
    · simp only [Trie.entries, List.singleton_append]
      rw [List.filter_cons,
        show isPre (c :: p₁) (([] : List Char), v).1 = false from rfl]
      simpa only [Bool.false_eq_true, if_false] using main

/-- Pairwise-sorted entry lists have at most one entry per key, so filtering
on a key that is present with a unique value yields exactly that entry. -/
theorem filter_key_singleton : ∀ (E : List (List Char × V)) (k : List Char) (v : V),
    E.Pairwise keyLt → (k, v) ∈ E → (∀ x, (k, x) ∈ E → x = v) →
    E.filter (fun e => e.1 == k) = [(k, v)] := by
  intro E
  induction E with
  | nil => intro k v _ hm _; exact absurd hm (List.not_mem_nil _)
  | cons e rest ih =>
    intro k v hp hm huniq
    rw [List.pairwise_cons] at hp
    rcases e with ⟨k₁, v₁⟩
    by_cases h1 : k₁ = k
    · subst h1
      have hv : v₁ = v := huniq v₁ (List.mem_cons_self _ _)
      subst hv
      have hrest : rest.filter (fun e => e.1 == k₁) = [] := by
        rw [List.filter_eq_nil]
        intro e he
        have hlt := hp.1 e he
        have hne : e.1 ≠ k₁ := by
          intro hh
          rw [show keyLt (k₁, v₁) e = (lexLt k₁ e.1 = true) from rfl, hh, lexLt_irrefl] at hlt
          exact Bool.noConfusion hlt
        simp [hne]
      simp [List.filter_cons, hrest]
    · have hm₂ : (k, v) ∈ rest := by
        rcases List.mem_cons.mp hm with h2 | h2
        · rw [Prod.mk.injEq] at h2
          exact absurd h2.1.symm h1
        · exact h2
      have hres := ih k v hp.2 hm₂ (fun x hx => huniq x (List.mem_cons_of_mem _ hx))
      have hne : (k₁ == k) = false := beq_eq_false_iff_ne.mpr h1
      simp [List.filter_cons, hne, hres]

/-- C1: `auto_complete p` returns exactly the values of the stored entries
whose key has `p` as an initial segment, those entries being exactly the
successfully looked-up (key, value) pairs, listed in strict lexicographic
order of their full keys (so the result is empty when no stored key extends
`p`); in particular for the inserted words cat → 0, car → 1, card → 2,
dog → 3, auto-completing "ca" yields [1, 2, 0] (car, card, cat). -/
theorem spec_C1 (t : Trie V) (p k : List Char) (v : V) (h : t.sortedB = true) :
    t.auto_complete p [] = (t.entries.filter (fun e => isPre p e.1)).map (fun e => e.2) ∧
    (t.entries.filter (fun e => isPre p e.1)).Pairwise keyLt ∧
    ((k, v) ∈ t.entries ↔ t.word_exist k = some v) ∧
    (build [((['c', 'a', 't'] : List Char), (0 : Nat)), (['c', 'a', 'r'], 1),
      (['c', 'a', 'r', 'd'], 2), (['d', 'o', 'g'], 3)]).auto_complete ['c', 'a'] [] =
      [1, 2, 0] := by
  refine ⟨?_, (entries_pairwise.1 t h).filter _, Trie.word_mem_entries k t v h, by decide⟩
  rw [Trie.entries_filter_find p t h]
  simp only [Trie.auto_complete]
  rcases hf : t.find p with _ | s
  · rfl
  · show s.get_all_objects [] =
      List.map (fun e => e.2) (List.map (fun e => (p ++ e.1, e.2)) s.entries)
    rw [Trie.get_all_objects_eq]
    simp [List.map_map, Function.comp]

/-- C1 witness: the four-word scenario container, auto-completed under "ca",
with the lookup of "dog". -/
theorem spec_C1_w :
    ((build [((['c', 'a', 't'] : List Char), (0 : Nat)), (['c', 'a', 'r'], 1),
        (['c', 'a', 'r', 'd'], 2), (['d', 'o', 'g'], 3)]).sortedB = true) ∧
    ((build [((['c', 'a', 't'] : List Char), (0 : Nat)), (['c', 'a', 'r'], 1),
        (['c', 'a', 'r', 'd'], 2), (['d', 'o', 'g'], 3)]).auto_complete ['c', 'a'] [] =
      ((build [((['c', 'a', 't'] : List Char), (0 : Nat)), (['c', 'a', 'r'], 1),
        (['c', 'a', 'r', 'd'], 2), (['d', 'o', 'g'], 3)]).entries.filter
          (fun e => isPre ['c', 'a'] e.1)).map (fun e => e.2) ∧
      ((build [((['c', 'a', 't'] : List Char), (0 : Nat)), (['c', 'a', 'r'], 1),
        (['c', 'a', 'r', 'd'], 2), (['d', 'o', 'g'], 3)]).entries.filter
          (fun e => isPre ['c', 'a'] e.1)).Pairwise keyLt ∧
      ((['d', 'o', 'g'], (3 : Nat)) ∈ (build [((['c', 'a', 't'] : List Char), (0 : Nat)),
          (['c', 'a', 'r'], 1), (['c', 'a', 'r', 'd'], 2), (['d', 'o', 'g'], 3)]).entries ↔
        (build [((['c', 'a', 't'] : List Char), (0 : Nat)), (['c', 'a', 'r'], 1),
          (['c', 'a', 'r', 'd'], 2), (['d', 'o', 'g'], 3)]).word_exist ['d', 'o', 'g'] =
          some 3) ∧
      (build [((['c', 'a', 't'] : List Char), (0 : Nat)), (['c', 'a', 'r'], 1),
        (['c', 'a', 'r', 'd'], 2), (['d', 'o', 'g'], 3)]).auto_complete ['c', 'a'] [] =
        [1, 2, 0]) :=
  ⟨by decide, spec_C1 _ ['c', 'a'] ['d', 'o', 'g'] 3 (by decide)⟩

/-- C6: re-inserting key `k` with a new value `v₂` makes lookups of `k`
return `v₂`; the stored entries keep exactly one entry for key `k`, holding
`v₂` (no duplicate path, old value gone), remain duplicate-free in strict
key order, and lookups of every other key are unchanged. -/
theorem spec_C6 (t : Trie V) (k k₁ : List Char) (v₂ : V)
    (h : t.sortedB = true) (hne : k₁ ≠ k) :
    (t.insert k v₂).word_exist k = some v₂ ∧
    (t.insert k v₂).entries.filter (fun e => e.1 == k) = [(k, v₂)] ∧
    (t.insert k v₂).word_exist k₁ = t.word_exist k₁ ∧
    (t.insert k v₂).entries.Pairwise keyLt := by
  have hs := Trie.sortedB_insert k t v₂ h
  have hp := entries_pairwise.1 _ hs
  have hw := Trie.word_exist_insert_self k t v₂ h
  refine ⟨hw, ?_, Trie.word_exist_insert_ne k₁ k t v₂ h hne, hp⟩
  apply filter_key_singleton _ k v₂ hp
  · exact (Trie.word_mem_entries k _ v₂ hs).mpr hw
  · intro x hx
    have hx₂ := (Trie.word_mem_entries k _ x hs).mp hx
    rw [hw] at hx₂
    injection hx₂ with hx₃
    exact hx₃.symm

/-- C6 witness: insert "a" → 1, then re-insert "a" → 2; lookups of "a" give
2, the entry list holds a single entry for "a", and "b" is unaffected. -/
theorem spec_C6_w :
    ((build [((['a'] : List Char), (1 : Nat))]).sortedB = true) ∧
    ((['b'] : List Char) ≠ ['a']) ∧
    (((build [((['a'] : List Char), (1 : Nat))]).insert ['a'] 2).word_exist ['a'] = some 2 ∧
      ((build [((['a'] : List Char), (1 : Nat))]).insert ['a'] 2).entries.filter
        (fun e => e.1 == ['a']) = [(['a'], 2)] ∧
      ((build [((['a'] : List Char), (1 : Nat))]).insert ['a'] 2).word_exist ['b'] =
        (build [((['a'] : List Char), (1 : Nat))]).word_exist ['b'] ∧
      ((build [((['a'] : List Char), (1 : Nat))]).insert ['a'] 2).entries.Pairwise keyLt) :=
  ⟨by decide, by decide, spec_C6 _ ['a'] ['b'] 2 (by decide) (by decide)⟩

/-- C10 witness: a container holding "a" → 5, queried at "a". -/
theorem spec_C10_w :
    ((Trie.empty : Trie Nat).insert ['a'] 5).word_exist ['a'] = some 5 ∧
    (((Trie.empty : Trie Nat).insert ['a'] 5).prefix_exist ['a'] = true ∧
      (((Trie.empty : Trie Nat).insert ['a'] 5).auto_complete ['a'] []).head? = some 5 ∧
      ((Trie.empty : Trie Nat).insert ['a'] 5).auto_complete ['a'] [] ≠ []) :=
  ⟨by decide, spec_C10 _ ['a'] 5 (by decide)⟩

end Dict
